import Mathlib

/-!
Verification of the `goemitter` event-emitter library.

The Go source (`goemitter.go`) is shallowly embedded below:

* event names and patterns (`string` / `[]rune` in Go) become `List Char`;
* callbacks are opaque values compared by pointer identity, so a callback is
  modelled by its identity, a `Nat`;
* the registry `map[interface{}][]Listener` becomes an association list from
  names to listener sequences (Go map keys are unique; the operations below
  manipulate the first — hence only — binding of a key);
* the variadic `...interface{}` argument vectors become `List Arg`, where an
  `Arg` is a name, a callback, or a slice of arguments (Go's `[]interface{}`
  passed as a single variadic element);
* callback invocation is observable: the emitter state carries a log of
  invocations `(callback, args)` in execution order, and a trace of the
  `EmitSync`/`EmitAsync` emission events themselves.

Callbacks themselves are treated as pure: the model records their invocation
but a callback body does not re-enter the emitter.
-/

set_option maxHeartbeats 1000000

namespace Goemitter

/-- `Listener` mirrors the source struct: a callback (identified by pointer
identity, modelled as `Nat`) plus the `once` flag. -/
structure Listener where
  callback : Nat
  once : Bool
deriving DecidableEq, Repr

/-- Event names and patterns are rune sequences (`[]rune` in the source). -/
abbrev Name := List Char

/-- The wildcard matcher `eventMatchPattern` of the source, translated
clause by clause: while the pattern is nonempty, a `'*'` head succeeds if the
rest of the pattern matches the event name unchanged, or if the event name is
nonempty and the whole pattern is retried on its tail; a literal head must
equal the event head and both advance.  On pattern exhaustion the match
succeeds iff the event name is exhausted too. -/
def eventMatchPattern (eventName pattern : Name) : Bool :=
  match pattern with
  | [] => eventName.isEmpty
  | c :: ps =>
    if c = '*' then
      eventMatchPattern eventName ps ||
        (match eventName with
         | [] => false
         | _ :: es => eventMatchPattern es (c :: ps))
    else
      match eventName with
      | [] => false
      | d :: es => d = c && eventMatchPattern es ps
termination_by (eventName.length, pattern.length)

/-- Executable twin of `eventMatchPattern`, structurally recursive on the
pattern: at a `'*'` the backtracking disjunction over "consume zero or more
event characters" is folded into a disjunction over all tails of the event
name, in the same order.  Used to evaluate the matcher on concrete input. -/
def matchP : Name → Name → Bool
  | [], e => e.isEmpty
  | c :: ps, e =>
    if c = '*' then
      e.tails.any (fun s => matchP ps s)
    else
      match e with
      | [] => false
      | d :: es => d = c && matchP ps es

/-- Unfolding: empty pattern. -/
theorem eMP_nil (e : Name) : eventMatchPattern e [] = e.isEmpty := by
  rw [eventMatchPattern.eq_def]

/-- Unfolding: wildcard head. -/
theorem eMP_star (e ps) : eventMatchPattern e ('*' :: ps) =
    (eventMatchPattern e ps ||
      (match e with | [] => false | _ :: es => eventMatchPattern es ('*' :: ps))) := by
  rw [eventMatchPattern.eq_def]
  simp

/-- Unfolding: literal head. -/
theorem eMP_lit (c : Char) (ps : Name) (h : c ≠ '*') (e : Name) :
    eventMatchPattern e (c :: ps) =
      (match e with | [] => false | d :: es => d = c && eventMatchPattern es ps) := by
  rw [eventMatchPattern.eq_def]
  simp [h]

theorem matchP_eq (e p : Name) : eventMatchPattern e p = matchP p e := by
  induction e, p using eventMatchPattern.induct with
  | case1 e => rw [eMP_nil]; cases e <;> simp [matchP]
  | case2 e ps ih1 ihm =>
    rw [eMP_star]
    cases e with
    | nil =>
      simp [matchP, ih1]
    | cons d es =>
      have ihm' : eventMatchPattern es ('*' :: ps) = matchP ('*' :: ps) es := ihm
      simp only [ih1, ihm']
      simp [matchP]
  | case3 c ps h =>
    rw [eMP_lit c ps h]
    simp [matchP, h]
  | case4 c ps h d es ih =>
    rw [eMP_lit c ps h]
    simp only [ih]
    simp [matchP, h]

/-- The matching algorithm exactly as the specification describes it, as an
inductive acceptance relation (for comparison with the source matcher):
success requires simultaneous exhaustion; a `'*'` consumes zero characters or
retries after consuming one; a literal pattern character must equal the next
event character. -/
inductive MatchSpec : Name → Name → Prop
  | done : MatchSpec [] []
  | starSkip (e ps) : MatchSpec e ps → MatchSpec e ('*' :: ps)
  | starEat (d es ps) : MatchSpec es ('*' :: ps) → MatchSpec (d :: es) ('*' :: ps)
  | lit (c es ps) : c ≠ '*' → MatchSpec es ps → MatchSpec (c :: es) (c :: ps)

/-- **C3.** The source matcher accepts an event name against a pattern iff
the specification's recursive algorithm does: at a `'*'` the match succeeds
by matching the rest of the pattern against the unchanged remainder, or (for
a nonempty event name) by retrying the same wildcard step after consuming one
event character; a literal pattern character must equal the next event
character; overall success requires both strings to be exhausted together.
This holds for every pattern, in particular every pattern containing `'*'`,
and gives `'*'` no segment-separator semantics. -/
theorem c3_matcher_follows_spec (e p : Name) :
    eventMatchPattern e p = true ↔ MatchSpec e p := by
  induction e, p using eventMatchPattern.induct with
  | case1 e =>
    rw [eMP_nil]
    cases e with
    | nil => simpa using MatchSpec.done
    | cons d es =>
      simp only [List.isEmpty_cons, Bool.false_eq_true, false_iff]
      intro h; cases h
  | case2 e ps ih1 ihm =>
    rw [eMP_star]
    cases e with
    | nil =>
      simp only [Bool.or_false, Bool.or_eq_true]
      constructor
      · intro h1
        exact MatchSpec.starSkip [] ps (ih1.mp h1)
      · intro hm
        cases hm with
        | starSkip _ _ hrest => exact ih1.mpr hrest
    | cons d es =>
      have ihm' : eventMatchPattern es ('*' :: ps) = true ↔ MatchSpec es ('*' :: ps) := ihm
      simp only [Bool.or_eq_true]
      constructor
      · rintro (h1 | h2)
        · exact MatchSpec.starSkip (d :: es) ps (ih1.mp h1)
        · exact MatchSpec.starEat d es ps (ihm'.mp h2)
      · intro hm
        cases hm with
        | starSkip _ _ hrest => exact Or.inl (ih1.mpr hrest)
        | starEat _ _ _ hrest => exact Or.inr (ihm'.mpr hrest)
        | lit _ _ _ hc _ => exact absurd rfl hc
  | case3 c ps h =>
    rw [eMP_lit c ps h]
    simp only [Bool.false_eq_true, false_iff]
    intro hm
    cases hm with
    | starSkip _ _ _ => exact absurd rfl h
  | case4 c ps h d es ih =>
    rw [eMP_lit c ps h]
    simp only [Bool.and_eq_true, decide_eq_true_eq]
    constructor
    · rintro ⟨rfl, hrest⟩
      exact MatchSpec.lit d es ps h (ih.mp hrest)
    · intro hm
      cases hm with
      | lit _ _ _ _ hrest => exact ⟨rfl, ih.mpr hrest⟩
      | starSkip _ _ _ => exact absurd rfl h
      | starEat _ _ _ _ => exact absurd rfl h

/-- Argument values (`interface{}` in the source): an event name, a callback,
or a slice of arguments (a `[]interface{}` value passed as a single variadic
element). -/
inductive Arg where
  | str : Name → Arg
  | cb : Nat → Arg
  | slice : List Arg → Arg

/-- The listener registry, `map[interface{}][]Listener` in the source, as an
association list.  Go map keys are unique, and every operation below reads or
rewrites the first (hence only) binding of a key. -/
abbrev Registry := List (Name × List Listener)

/-- Map indexing `self.listeners[event]` with its `ok` flag. -/
def lookupKey : Registry → Name → Option (List Listener)
  | [], _ => none
  | (k, l) :: rest, e => if k = e then some l else lookupKey rest e

/-- The sequence stored under a key, `[]` when the key is absent. -/
def keyList (r : Registry) (e : Name) : List Listener :=
  (lookupKey r e).getD []

/-- The `shouldAdd` condition of `Listeners`, in source order: the literal
`"**"` key, the exact event name, or a key containing `'*'` that matches the
event name. -/
def shouldAdd (pattern event : Name) : Bool :=
  pattern = ['*', '*'] || pattern = event ||
    (pattern.contains '*' && eventMatchPattern event pattern)

/-- `Listeners`: the snapshot aggregating the sequences of every registered
key whose pattern matches the event name. -/
def Listeners : Registry → Name → List Listener
  | [], _ => []
  | (k, l) :: rest, e =>
    if shouldAdd k e then l ++ Listeners rest e else Listeners rest e

/-- `ListenersCount`: length of the `Listeners` snapshot. -/
def ListenersCount (r : Registry) (e : Name) : Nat :=
  (Listeners r e).length

/-- Observable emitter state: the registry, the log of callback invocations
`(callback, args)` in execution order, and the trace of emission events. -/
structure EmitterState where
  listeners : Registry
  log : List (Nat × List Arg)
  emits : List (Name × List Arg)

/-- `Construct()`: fresh emitter with an empty registry. -/
def Construct : EmitterState := ⟨[], [], []⟩

/-- The reserved meta-event name `"newListener"`. -/
def newListenerName : Name :=
  ['n', 'e', 'w', 'L', 'i', 's', 't', 'e', 'n', 'e', 'r']

/-- The reserved meta-event name `"removeListener"`. -/
def removeListenerName : Name :=
  ['r', 'e', 'm', 'o', 'v', 'e', 'L', 'i', 's', 't', 'e', 'n', 'e', 'r']

/-- First half of the registration body: `if _, ok := ...; !ok` installs an
empty sequence for a missing key. -/
def ensureKey (r : Registry) (e : Name) : Registry :=
  match lookupKey r e with
  | some _ => r
  | none => r ++ [(e, [])]

/-- Second half of the registration body: append one listener to the (now
present) key's sequence. -/
def appendAt : Registry → Name → Listener → Registry
  | [], _, _ => []
  | (k, l) :: rest, e, v =>
    if k = e then (k, l ++ [v]) :: rest else (k, l) :: appendAt rest e v

/-- Registry effect shared by `On` and `Once`. -/
def addListener (r : Registry) (e : Name) (v : Listener) : Registry :=
  appendAt (ensureKey r e) e v

/-- The splice `append(l[:k], l[k+1:]...)` at the first index whose callback
is pointer-equal to `f`. -/
def removeFirst : List Listener → Nat → List Listener
  | [], _ => []
  | v :: rest, f => if v.callback = f then rest else v :: removeFirst rest f

/-- Whether the scan of `removeListenerInternal` finds a pointer-equal
callback in the sequence. -/
def hasCallback (l : List Listener) (f : Nat) : Bool :=
  l.any (fun v => v.callback = f)

/-- Overwrite the sequence stored under a present key. -/
def setKey : Registry → Name → List Listener → Registry
  | [], _, _ => []
  | (k, l) :: rest, e, nl =>
    if k = e then (k, nl) :: rest else (k, l) :: setKey rest e nl

/-- Registry effect of `removeListenerInternal`: no-op when the key is absent
or no callback matches, otherwise remove the first matching entry. -/
def removeListenerInternal (r : Registry) (e : Name) (f : Nat) : Registry :=
  match lookupKey r e with
  | none => r
  | some l => if hasCallback l f then setKey r e (removeFirst l f) else r

/-- One iteration of the dispatch loop: a `once` listener is first removed
from the registry under the *emitted event name* key with the meta-event
suppressed (`removeListenerInternal(event, v.callback, true)`), then the
callback is invoked with `args`. -/
def invokeStep (e : Name) (args : List Arg) (st : EmitterState) (v : Listener) : EmitterState :=
  let st1 :=
    if v.once then
      { st with listeners := removeListenerInternal st.listeners e v.callback }
    else st
  { st1 with log := st1.log ++ [(v.callback, args)] }

/-- `EmitSync`: record the emission, snapshot the matching listeners once,
then run the dispatch loop over the snapshot. -/
def EmitSync (st : EmitterState) (e : Name) (args : List Arg) : EmitterState :=
  (Listeners st.listeners e).foldl (invokeStep e args)
    { st with emits := st.emits ++ [(e, args)] }

/-- `EmitAsync`: same snapshot and once-removal bookkeeping as `EmitSync`;
each callback is launched on its own goroutine (`go v.callback(args...)`),
which the sequential model records as an invocation like `EmitSync` does. -/
def EmitAsync (st : EmitterState) (e : Name) (args : List Arg) : EmitterState :=
  (Listeners st.listeners e).foldl (invokeStep e args)
    { st with emits := st.emits ++ [(e, args)] }

/-- `On`: append a non-once listener under the pattern key, then emit
`"newListener"`.  Note the source passes `[]interface{}{event, callback}` to
the *variadic* `EmitSync`, i.e. a single argument that is a slice. -/
def On (st : EmitterState) (event : Name) (f : Nat) : EmitterState :=
  let st1 := { st with listeners := addListener st.listeners event ⟨f, false⟩ }
  EmitSync st1 newListenerName [Arg.slice [Arg.str event, Arg.cb f]]

/-- `Once`: like `On` with the `once` flag set. -/
def Once (st : EmitterState) (event : Name) (f : Nat) : EmitterState :=
  let st1 := { st with listeners := addListener st.listeners event ⟨f, true⟩ }
  EmitSync st1 newListenerName [Arg.slice [Arg.str event, Arg.cb f]]

/-- `RemoveListener` (external, `suppress = false`): no-op when the key is
absent or no callback matches; otherwise remove the first matching entry and
then emit `"removeListener"` (again with a single slice argument). -/
def RemoveListener (st : EmitterState) (event : Name) (f : Nat) : EmitterState :=
  match lookupKey st.listeners event with
  | none => st
  | some l =>
    if hasCallback l f then
      EmitSync { st with listeners := setKey st.listeners event (removeFirst l f) }
        removeListenerName [Arg.slice [Arg.str event, Arg.cb f]]
    else st

/-- `delete(self.listeners, event)`: drop the binding of a key. -/
def eraseKey : Registry → Name → Registry
  | [], _ => []
  | (k, l) :: rest, e =>
    if k = e then eraseKey rest e else (k, l) :: eraseKey rest e

/-- `RemoveAllListeners`: with the `nil` sentinel (`none`) install a fresh
empty map; with a concrete key, no-op when absent, else delete exactly that
binding. -/
def RemoveAllListeners (st : EmitterState) (event : Option Name) : EmitterState :=
  match event with
  | none => { st with listeners := [] }
  | some e =>
    match lookupKey st.listeners e with
    | none => st
    | some _ => { st with listeners := eraseKey st.listeners e }

/-- `Destruct`: the source executes `self = nil`, an assignment to the
method's own copy of the receiver pointer.  The caller's emitter and its
registry are untouched, so observably the operation is the identity. -/
def Destruct (st : EmitterState) : EmitterState := st

/-- Evaluation form of `shouldAdd` in terms of the executable twin matcher. -/
theorem shouldAdd_eval (p e : Name) :
    shouldAdd p e = (p = ['*', '*'] || p = e || (p.contains '*' && matchP p e)) := by
  rw [shouldAdd, matchP_eq]

/-- A pattern matches itself as a `Listeners` key. -/
theorem shouldAdd_self (p : Name) : shouldAdd p p = true := by
  simp [shouldAdd]

/-- The `"**"` key matches every event name. -/
theorem shouldAdd_starStar (e : Name) : shouldAdd ['*', '*'] e = true := by
  simp [shouldAdd]

/-- A wildcard-free key matches exactly the identical event name. -/
theorem shouldAdd_of_no_wildcard (p e : Name) (hp : p.contains '*' = false) :
    shouldAdd p e = true ↔ p = e := by
  constructor
  · intro h
    rw [shouldAdd] at h
    rcases Bool.or_eq_true_iff.mp h with h1 | h2
    · rcases Bool.or_eq_true_iff.mp h1 with h3 | h4
      · exfalso
        rw [decide_eq_true_eq.mp h3] at hp
        exact absurd hp (by decide)
      · exact decide_eq_true_eq.mp h4
    · rw [Bool.and_eq_true, hp] at h2
      exact absurd h2.1 (by simp)
  · rintro rfl
    exact shouldAdd_self p

/-- Every member of a matching key's sequence is in the snapshot. -/
theorem mem_Listeners {r : Registry} {e : Name} {kl : Name × List Listener}
    {v : Listener} (hkl : kl ∈ r) (hm : shouldAdd kl.1 e = true) (hv : v ∈ kl.2) :
    v ∈ Listeners r e := by
  induction r with
  | nil => cases hkl
  | cons hd tl ih =>
    obtain ⟨k, l⟩ := hd
    rw [Listeners]
    rcases List.mem_cons.mp hkl with rfl | htl
    · rw [hm]
      exact List.mem_append_left _ hv
    · by_cases hk : shouldAdd k e = true
      · rw [hk]
        exact List.mem_append_right _ (ih htl)
      · simp only [Bool.not_eq_true] at hk
        rw [hk]
        exact ih htl

/-- A registry in which no key matches yields an empty snapshot. -/
theorem Listeners_eq_nil (r : Registry) (e : Name)
    (h : ∀ kl ∈ r, shouldAdd kl.1 e = false) : Listeners r e = [] := by
  induction r with
  | nil => rfl
  | cons hd tl ih =>
    rw [Listeners, h hd (List.mem_cons_self hd tl)]
    simp only [Bool.false_eq_true, if_false]
    exact ih fun kl hkl => h kl (List.mem_cons_of_mem hd hkl)

/-- A successful lookup exhibits a registry entry. -/
theorem lookupKey_some_mem {r : Registry} {k : Name} {l : List Listener}
    (h : lookupKey r k = some l) : (k, l) ∈ r := by
  induction r with
  | nil => cases h
  | cons hd tl ih =>
    obtain ⟨k', l'⟩ := hd
    rw [lookupKey] at h
    split at h
    · rename_i heq
      injection h with hh
      subst heq hh
      exact List.mem_cons_self _ _
    · exact List.mem_cons_of_mem _ (ih h)

/-- A key is absent from the map iff it is not among the stored keys. -/
theorem lookupKey_eq_none_iff (r : Registry) (k : Name) :
    lookupKey r k = none ↔ k ∉ r.map Prod.fst := by
  induction r with
  | nil => simp [lookupKey]
  | cons hd tl ih =>
    obtain ⟨k', l'⟩ := hd
    rw [lookupKey]
    by_cases hk : k' = k
    · subst hk
      simp
    · simp only [if_neg hk, List.map_cons, List.mem_cons, ih]
      constructor
      · intro h hc
        rcases hc with hc | hc
        · exact hk hc.symm
        · exact h hc
      · intro h
        exact fun hc => h (Or.inr hc)

/-- `setKey` leaves other keys' bindings alone. -/
theorem lookupKey_setKey_ne (r : Registry) (e k : Name) (nl : List Listener)
    (h : k ≠ e) : lookupKey (setKey r e nl) k = lookupKey r k := by
  induction r with
  | nil => rfl
  | cons hd tl ih =>
    obtain ⟨k', l'⟩ := hd
    rw [setKey]
    by_cases hk : k' = e
    · rw [if_pos hk, lookupKey, lookupKey]
      subst hk
      rw [if_neg (fun hc => h hc.symm), if_neg (fun hc => h hc.symm)]
    · rw [if_neg hk, lookupKey, lookupKey]
      by_cases hkk : k' = k
      · rw [if_pos hkk, if_pos hkk]
      · rw [if_neg hkk, if_neg hkk]
        exact ih

/-- `setKey` rewrites the binding of a present key. -/
theorem lookupKey_setKey_self {r : Registry} {e : Name} {l : List Listener}
    (nl : List Listener) (h : lookupKey r e = some l) :
    lookupKey (setKey r e nl) e = some nl := by
  induction r with
  | nil => cases h
  | cons hd tl ih =>
    obtain ⟨k', l'⟩ := hd
    rw [lookupKey] at h
    rw [setKey]
    by_cases hk : k' = e
    · rw [if_pos hk, lookupKey, if_pos hk]
    · rw [if_neg hk] at h
      rw [if_neg hk, lookupKey, if_neg hk]
      exact ih h

/-- `setKey` does not change the stored keys. -/
theorem keys_setKey (r : Registry) (e : Name) (nl : List Listener) :
    (setKey r e nl).map Prod.fst = r.map Prod.fst := by
  induction r with
  | nil => rfl
  | cons hd tl ih =>
    obtain ⟨k', l'⟩ := hd
    rw [setKey]
    by_cases hk : k' = e
    · rw [if_pos hk]
      simp
    · rw [if_neg hk]
      simp only [List.map_cons, ih]

/-- `removeListenerInternal` leaves other keys' bindings alone. -/
theorem lookupKey_removeListenerInternal_ne (r : Registry) (e k : Name) (f : Nat)
    (h : k ≠ e) : lookupKey (removeListenerInternal r e f) k = lookupKey r k := by
  rw [removeListenerInternal]
  split
  · rfl
  · split
    · exact lookupKey_setKey_ne r e k _ h
    · rfl

/-- `removeListenerInternal` does not change the stored keys. -/
theorem keys_removeListenerInternal (r : Registry) (e : Name) (f : Nat) :
    (removeListenerInternal r e f).map Prod.fst = r.map Prod.fst := by
  rw [removeListenerInternal]
  split
  · rfl
  · split
    · exact keys_setKey r e _
    · rfl

/-- Each dispatch-loop iteration appends exactly one invocation record. -/
theorem foldl_invokeStep_log (l : List Listener) (e : Name) (args : List Arg)
    (st : EmitterState) :
    (l.foldl (invokeStep e args) st).log = st.log ++ l.map (fun v => (v.callback, args)) := by
  induction l generalizing st with
  | nil => simp
  | cons v tl ih =>
    rw [List.foldl_cons, ih]
    by_cases h : v.once = true <;> simp [invokeStep, h]

/-- The dispatch loop itself records no emission events. -/
theorem foldl_invokeStep_emits (l : List Listener) (e : Name) (args : List Arg)
    (st : EmitterState) :
    (l.foldl (invokeStep e args) st).emits = st.emits := by
  induction l generalizing st with
  | nil => rfl
  | cons v tl ih =>
    rw [List.foldl_cons, ih]
    by_cases h : v.once = true <;> simp [invokeStep, h]

/-- The dispatch loop only removes listeners under the emitted key. -/
theorem foldl_invokeStep_lookup_ne (l : List Listener) (e k : Name)
    (args : List Arg) (st : EmitterState) (h : k ≠ e) :
    lookupKey (l.foldl (invokeStep e args) st).listeners k = lookupKey st.listeners k := by
  induction l generalizing st with
  | nil => rfl
  | cons v tl ih =>
    rw [List.foldl_cons, ih]
    by_cases hv : v.once = true
    · simp only [invokeStep, hv, if_true]
      exact lookupKey_removeListenerInternal_ne _ _ _ _ h
    · simp only [Bool.not_eq_true] at hv
      simp [invokeStep, hv]

/-- The dispatch loop does not change the stored keys. -/
theorem foldl_invokeStep_keys (l : List Listener) (e : Name) (args : List Arg)
    (st : EmitterState) :
    (l.foldl (invokeStep e args) st).listeners.map Prod.fst
      = st.listeners.map Prod.fst := by
  induction l generalizing st with
  | nil => rfl
  | cons v tl ih =>
    rw [List.foldl_cons, ih]
    by_cases hv : v.once = true
    · simp only [invokeStep, hv, if_true]
      exact keys_removeListenerInternal _ _ _
    · simp only [Bool.not_eq_true] at hv
      simp [invokeStep, hv]

/-- A dispatch over a snapshot free of `once` listeners leaves the registry
untouched. -/
theorem foldl_invokeStep_listeners (l : List Listener) (e : Name)
    (args : List Arg) (st : EmitterState) (h : ∀ v ∈ l, v.once = false) :
    (l.foldl (invokeStep e args) st).listeners = st.listeners := by
  induction l generalizing st with
  | nil => rfl
  | cons v tl ih =>
    rw [List.foldl_cons, ih _ fun u hu => h u (List.mem_cons_of_mem v hu)]
    simp [invokeStep, h v (List.mem_cons_self v tl)]

/-- `EmitSync` invokes exactly the snapshot, in snapshot order, each listener
receiving `args`. -/
theorem EmitSync_log (st : EmitterState) (e : Name) (args : List Arg) :
    (EmitSync st e args).log
      = st.log ++ (Listeners st.listeners e).map (fun v => (v.callback, args)) := by
  rw [EmitSync, foldl_invokeStep_log]

/-- `EmitSync` records exactly its own emission event: every removal it
performs internally is suppressed and emits nothing. -/
theorem EmitSync_emits (st : EmitterState) (e : Name) (args : List Arg) :
    (EmitSync st e args).emits = st.emits ++ [(e, args)] := by
  rw [EmitSync, foldl_invokeStep_emits]

/-- `EmitSync` leaves the bindings of all keys other than the emitted event
name unchanged. -/
theorem EmitSync_lookup_ne (st : EmitterState) (e k : Name) (args : List Arg)
    (h : k ≠ e) :
    lookupKey (EmitSync st e args).listeners k = lookupKey st.listeners k := by
  rw [EmitSync, foldl_invokeStep_lookup_ne _ _ _ _ _ h]

/-- `EmitSync` does not change the stored keys. -/
theorem EmitSync_keys (st : EmitterState) (e : Name) (args : List Arg) :
    (EmitSync st e args).listeners.map Prod.fst = st.listeners.map Prod.fst := by
  rw [EmitSync, foldl_invokeStep_keys]

/-- `EmitSync` over a snapshot free of `once` listeners leaves the registry
untouched. -/
theorem EmitSync_listeners (st : EmitterState) (e : Name) (args : List Arg)
    (h : ∀ v ∈ Listeners st.listeners e, v.once = false) :
    (EmitSync st e args).listeners = st.listeners := by
  rw [EmitSync, foldl_invokeStep_listeners _ _ _ _ h]

/-- Removing a callback that does not occur is the identity. -/
theorem removeFirst_of_not_has (l : List Listener) (f : Nat)
    (h : hasCallback l f = false) : removeFirst l f = l := by
  induction l with
  | nil => rfl
  | cons v tl ih =>
    rw [hasCallback, List.any_cons, Bool.or_eq_false_iff] at h
    rw [removeFirst, if_neg (by simpa using h.1)]
    rw [ih h.2]

/-- `removeFirst` removes exactly the first entry whose callback matches,
keeping the relative order of everything else. -/
theorem removeFirst_decomp (l₁ l₂ : List Listener) (v : Listener) (f : Nat)
    (h₁ : ∀ u ∈ l₁, u.callback ≠ f) (hv : v.callback = f) :
    removeFirst (l₁ ++ v :: l₂) f = l₁ ++ l₂ := by
  induction l₁ with
  | nil =>
    simp only [List.nil_append]
    rw [removeFirst, if_pos hv]
  | cons u tl ih =>
    simp only [List.cons_append]
    rw [removeFirst, if_neg (h₁ u (List.mem_cons_self u tl))]
    rw [ih fun w hw => h₁ w (List.mem_cons_of_mem u hw)]

/-- A successful removal shortens the sequence by exactly one entry. -/
theorem length_removeFirst (l : List Listener) (f : Nat)
    (h : hasCallback l f = true) : (removeFirst l f).length + 1 = l.length := by
  induction l with
  | nil => cases h
  | cons v tl ih =>
    rw [removeFirst]
    by_cases hv : v.callback = f
    · rw [if_pos hv]
      simp
    · rw [if_neg hv]
      rw [hasCallback, List.any_cons, Bool.or_eq_true] at h
      rcases h with h | h
      · exact absurd (by simpa using h) hv
      · simp only [List.length_cons]
        rw [← ih h]

/-- `removeFirst` yields a sublist (used to carry `once`-freeness along). -/
theorem removeFirst_sublist (l : List Listener) (f : Nat) :
    (removeFirst l f).Sublist l := by
  induction l with
  | nil => exact List.Sublist.refl []
  | cons v tl ih =>
    rw [removeFirst]
    by_cases hv : v.callback = f
    · rw [if_pos hv]
      exact List.sublist_cons_self v tl
    · rw [if_neg hv]
      exact List.Sublist.cons₂ v ih

/-- Lookup walks into the right part of an append once the left part misses. -/
theorem lookupKey_append_of_none (r r' : Registry) (k : Name)
    (h : lookupKey r k = none) : lookupKey (r ++ r') k = lookupKey r' k := by
  induction r with
  | nil => rfl
  | cons hd tl ih =>
    obtain ⟨k', l'⟩ := hd
    rw [lookupKey] at h
    rw [List.cons_append, lookupKey]
    split at h
    · cases h
    · rename_i hk
      rw [if_neg hk]
      exact ih h

/-- A single appended binding is invisible to lookups of other keys. -/
theorem lookupKey_append_single_ne (r : Registry) (e k : Name)
    (l0 : List Listener) (h : k ≠ e) :
    lookupKey (r ++ [(e, l0)]) k = lookupKey r k := by
  induction r with
  | nil => simp [lookupKey, Ne.symm h]
  | cons hd tl ih =>
    obtain ⟨k', l'⟩ := hd
    rw [List.cons_append]
    simp only [lookupKey]
    by_cases hkk : k' = k
    · rw [if_pos hkk, if_pos hkk]
    · rw [if_neg hkk, if_neg hkk, ih]

/-- `ensureKey` makes the key present, bound to its previous sequence or
`[]`. -/
theorem lookupKey_ensureKey_self (r : Registry) (e : Name) :
    lookupKey (ensureKey r e) e = some (keyList r e) := by
  rw [ensureKey, keyList]
  cases h : lookupKey r e with
  | some l => simpa using h
  | none =>
    simp only [Option.getD_none]
    rw [lookupKey_append_of_none r _ e h]
    simp [lookupKey]

/-- `ensureKey` leaves other keys' bindings alone. -/
theorem lookupKey_ensureKey_ne (r : Registry) (e k : Name) (h : k ≠ e) :
    lookupKey (ensureKey r e) k = lookupKey r k := by
  rw [ensureKey]
  cases he : lookupKey r e with
  | some l => rfl
  | none => exact lookupKey_append_single_ne r e k [] h

/-- `appendAt` rewrites the binding of a present key by appending. -/
theorem lookupKey_appendAt_self (r : Registry) (e : Name) (v : Listener) :
    lookupKey (appendAt r e v) e = (lookupKey r e).map (fun l => l ++ [v]) := by
  induction r with
  | nil => rfl
  | cons hd tl ih =>
    obtain ⟨k', l'⟩ := hd
    by_cases hk : k' = e
    · subst hk
      simp [appendAt, lookupKey]
    · simp [appendAt, lookupKey, hk, ih]

/-- `appendAt` leaves other keys' bindings alone. -/
theorem lookupKey_appendAt_ne (r : Registry) (e k : Name) (v : Listener)
    (h : k ≠ e) : lookupKey (appendAt r e v) k = lookupKey r k := by
  induction r with
  | nil => rfl
  | cons hd tl ih =>
    obtain ⟨k', l'⟩ := hd
    by_cases hk : k' = e
    · subst hk
      simp [appendAt, lookupKey, Ne.symm h]
    · simp only [appendAt, if_neg hk, lookupKey]
      by_cases hkk : k' = k
      · rw [if_pos hkk, if_pos hkk]
      · rw [if_neg hkk, if_neg hkk, ih]

/-- Registration binds the key to its previous sequence with the new listener
appended at the end. -/
theorem lookupKey_addListener_self (r : Registry) (e : Name) (v : Listener) :
    lookupKey (addListener r e v) e = some (keyList r e ++ [v]) := by
  rw [addListener, lookupKey_appendAt_self, lookupKey_ensureKey_self]
  rfl

/-- Registration leaves other keys' bindings alone. -/
theorem lookupKey_addListener_ne (r : Registry) (e k : Name) (v : Listener)
    (h : k ≠ e) : lookupKey (addListener r e v) k = lookupKey r k := by
  rw [addListener, lookupKey_appendAt_ne _ _ _ _ h, lookupKey_ensureKey_ne _ _ _ h]

/-- `appendAt` does not change the stored keys. -/
theorem keys_appendAt (r : Registry) (e : Name) (v : Listener) :
    (appendAt r e v).map Prod.fst = r.map Prod.fst := by
  induction r with
  | nil => rfl
  | cons hd tl ih =>
    obtain ⟨k', l'⟩ := hd
    rw [appendAt]
    by_cases hk : k' = e
    · rw [if_pos hk]
      simp
    · rw [if_neg hk]
      simp only [List.map_cons, ih]

/-- Registering under a present key does not change the stored keys. -/
theorem keys_addListener_some (r : Registry) (e : Name) (v : Listener)
    (l : List Listener) (h : lookupKey r e = some l) :
    (addListener r e v).map Prod.fst = r.map Prod.fst := by
  rw [addListener, ensureKey, h, keys_appendAt]

/-- Registering under an absent key appends that key at the end. -/
theorem keys_addListener_none (r : Registry) (e : Name) (v : Listener)
    (h : lookupKey r e = none) :
    (addListener r e v).map Prod.fst = r.map Prod.fst ++ [e] := by
  rw [addListener, ensureKey, h, keys_appendAt]
  simp

/-- The snapshot collapses to the key's own sequence when no other stored key
matches the event name and the key is stored at most once. -/
theorem Listeners_eq_keyList (p : Name) (r : Registry)
    (hA : ∀ kl ∈ r, kl.1 ≠ p → shouldAdd kl.1 p = false)
    (hB : (r.map Prod.fst).count p ≤ 1) :
    Listeners r p = keyList r p := by
  induction r with
  | nil => rfl
  | cons hd tl ih =>
    obtain ⟨k, l⟩ := hd
    rw [Listeners, keyList, lookupKey]
    by_cases hk : k = p
    · subst hk
      rw [shouldAdd_self]
      simp only [if_pos rfl, Option.getD_some]
      have htl : Listeners tl k = [] := by
        apply Listeners_eq_nil
        intro kl hkl
        apply hA kl (List.mem_cons_of_mem _ hkl)
        intro hc
        have hcount : (List.map Prod.fst tl).count k = 0 := by
          have := hB
          simp only [List.map_cons, List.count_cons_self] at this
          omega
        have hmem : kl.1 ∈ List.map Prod.fst tl := List.mem_map_of_mem Prod.fst hkl
        rw [hc] at hmem
        exact absurd hmem (List.count_eq_zero.mp hcount)
      simp [htl]
    · have hsk : shouldAdd k p = false :=
        hA (k, l) (List.mem_cons_self _ _) hk
      rw [hsk]
      simp only [Bool.false_eq_true, if_false, if_neg hk]
      rw [← keyList]
      apply ih
      · intro kl hkl
        exact hA kl (List.mem_cons_of_mem _ hkl)
      · calc (List.map Prod.fst tl).count p
            ≤ (List.map Prod.fst ((k, l) :: tl)).count p := by
              simp only [List.map_cons]
              exact List.count_le_count_cons p k _
          _ ≤ 1 := hB

/-- Invariant for the exact-pattern counting claim: no stored key other than
`p` itself matches `p`, the key `p` is stored at most once, and all of `p`'s
listeners are non-`once`. -/
def ExactInv (p : Name) (r : Registry) : Prop :=
  (∀ kl ∈ r, kl.1 ≠ p → shouldAdd kl.1 p = false) ∧
  (r.map Prod.fst).count p ≤ 1 ∧
  (∀ v ∈ keyList r p, v.once = false)

/-- The first invariant component transfers along key preservation. -/
theorem invA_of_keys_eq {p : Name} {r r' : Registry}
    (hk : r'.map Prod.fst = r.map Prod.fst)
    (hA : ∀ kl ∈ r, kl.1 ≠ p → shouldAdd kl.1 p = false) :
    ∀ kl ∈ r', kl.1 ≠ p → shouldAdd kl.1 p = false := by
  intro kl hkl hne
  have h1 : kl.1 ∈ r'.map Prod.fst := List.mem_map_of_mem _ hkl
  rw [hk] at h1
  obtain ⟨kl0, hkl0, hfst⟩ := List.mem_map.mp h1
  rw [← hfst]
  exact hA kl0 hkl0 (by rw [hfst]; exact hne)

/-- Any emission performed while the invariant holds preserves it and leaves
the binding of `p` untouched (the meta-emissions of `On`/`Once` and
`RemoveListener` are instances of this). -/
theorem EmitSync_exactInv (p : Name) (st : EmitterState) (e : Name)
    (args : List Arg) (h : ExactInv p st.listeners) :
    ExactInv p (EmitSync st e args).listeners ∧
      keyList (EmitSync st e args).listeners p = keyList st.listeners p := by
  obtain ⟨hA, hB, hC⟩ := h
  by_cases hpe : p = e
  · subst hpe
    have hsnap : Listeners st.listeners p = keyList st.listeners p :=
      Listeners_eq_keyList p st.listeners hA hB
    have hnonce : ∀ v ∈ Listeners st.listeners p, v.once = false := by
      rw [hsnap]
      exact hC
    rw [EmitSync_listeners st p args hnonce]
    exact ⟨⟨hA, hB, hC⟩, rfl⟩
  · have hkeys := EmitSync_keys st e args
    have hlk : lookupKey (EmitSync st e args).listeners p = lookupKey st.listeners p :=
      EmitSync_lookup_ne st e p args hpe
    refine ⟨⟨invA_of_keys_eq hkeys hA, ?_, ?_⟩, ?_⟩
    · rw [hkeys]
      exact hB
    · rw [keyList, hlk]
      exact hC
    · rw [keyList, keyList, hlk]

/-- An `On` call on `p` preserves the invariant and appends exactly one
non-`once` listener to `p`'s sequence. -/
theorem On_exact_step (p : Name) (st : EmitterState) (f : Nat)
    (h : ExactInv p st.listeners) :
    ExactInv p (On st p f).listeners ∧
      keyList (On st p f).listeners p
        = keyList st.listeners p ++ [⟨f, false⟩] := by
  obtain ⟨hA, hB, hC⟩ := h
  have hlk1 : lookupKey (addListener st.listeners p ⟨f, false⟩) p
      = some (keyList st.listeners p ++ [⟨f, false⟩]) :=
    lookupKey_addListener_self _ _ _
  have hinv1 : ExactInv p (addListener st.listeners p ⟨f, false⟩) := by
    refine ⟨?_, ?_, ?_⟩
    · cases he : lookupKey st.listeners p with
      | some l => exact invA_of_keys_eq (keys_addListener_some _ _ _ l he) hA
      | none =>
        intro kl hkl hne
        have h1 : kl.1 ∈ (addListener st.listeners p ⟨f, false⟩).map Prod.fst :=
          List.mem_map_of_mem _ hkl
        rw [keys_addListener_none _ _ _ he] at h1
        rcases List.mem_append.mp h1 with h1 | h1
        · obtain ⟨kl0, hkl0, hfst⟩ := List.mem_map.mp h1
          rw [← hfst]
          exact hA kl0 hkl0 (by rw [hfst]; exact hne)
        · exact absurd (List.mem_singleton.mp h1) hne
    · cases he : lookupKey st.listeners p with
      | some l =>
        rw [keys_addListener_some _ _ _ l he]
        exact hB
      | none =>
        rw [keys_addListener_none _ _ _ he]
        have h0 : (st.listeners.map Prod.fst).count p = 0 :=
          List.count_eq_zero.mpr ((lookupKey_eq_none_iff _ _).mp he)
        rw [List.count_append, h0]
        simp
    · rw [keyList, hlk1]
      intro v hv
      simp only [Option.getD_some] at hv
      rcases List.mem_append.mp hv with hv | hv
      · exact hC v hv
      · rw [List.mem_singleton.mp hv]
  have hfin := EmitSync_exactInv p
    { st with listeners := addListener st.listeners p ⟨f, false⟩ }
    newListenerName [Arg.slice [Arg.str p, Arg.cb f]] hinv1
  rw [On]
  refine ⟨hfin.1, ?_⟩
  rw [hfin.2, keyList, hlk1]
  rfl

/-- A `RemoveListener` call on `p` preserves the invariant and removes
exactly the first matching entry of `p`'s sequence (nothing on a miss). -/
theorem RemoveListener_exact_step (p : Name) (st : EmitterState) (f : Nat)
    (h : ExactInv p st.listeners) :
    ExactInv p (RemoveListener st p f).listeners ∧
      keyList (RemoveListener st p f).listeners p
        = removeFirst (keyList st.listeners p) f := by
  obtain ⟨hA, hB, hC⟩ := h
  rw [RemoveListener]
  split
  · rename_i he
    refine ⟨⟨hA, hB, hC⟩, ?_⟩
    rw [keyList, he]
    rfl
  · rename_i l he
    split
    · rename_i hc
      have hlk2 : lookupKey (setKey st.listeners p (removeFirst l f)) p
          = some (removeFirst l f) := lookupKey_setKey_self _ he
      have hkl : keyList st.listeners p = l := by
        rw [keyList, he]
        rfl
      have hinv2 : ExactInv p (setKey st.listeners p (removeFirst l f)) := by
        refine ⟨invA_of_keys_eq (keys_setKey _ _ _) hA, ?_, ?_⟩
        · rw [keys_setKey]
          exact hB
        · rw [keyList, hlk2]
          intro v hv
          simp only [Option.getD_some] at hv
          exact hC v (hkl ▸ (removeFirst_sublist l f).mem hv)
      have hfin := EmitSync_exactInv p
        { st with listeners := setKey st.listeners p (removeFirst l f) }
        removeListenerName [Arg.slice [Arg.str p, Arg.cb f]] hinv2
      refine ⟨hfin.1, ?_⟩
      rw [hfin.2, keyList, hlk2, hkl]
      rfl
    · rename_i hc
      rw [Bool.not_eq_true] at hc
      have hkl : keyList st.listeners p = l := by
        rw [keyList, he]
        rfl
      refine ⟨⟨hA, hB, hC⟩, ?_⟩
      rw [hkl, removeFirst_of_not_has _ _ hc]

/-- One step of a C1 trace: an `On` or an external `RemoveListener`, both on
the same fixed pattern. -/
inductive COp where
  | add (f : Nat)
  | rem (f : Nat)

/-- Run a C1 trace left to right. -/
def runCOps (p : Name) : EmitterState → List COp → EmitterState
  | st, [] => st
  | st, COp.add f :: rest => runCOps p (On st p f) rest
  | st, COp.rem f :: rest => runCOps p (RemoveListener st p f) rest

/-- Number of `On` calls in a trace. -/
def countAdds : List COp → Nat
  | [] => 0
  | COp.add _ :: rest => countAdds rest + 1
  | COp.rem _ :: rest => countAdds rest

/-- Number of successful removals along a trace: a removal succeeds when, at
the moment it runs, the pattern's sequence holds an identical callback. -/
def countSuccess (p : Name) : EmitterState → List COp → Nat
  | _, [] => 0
  | st, COp.add f :: rest => countSuccess p (On st p f) rest
  | st, COp.rem f :: rest =>
    (if hasCallback (keyList st.listeners p) f then 1 else 0) +
      countSuccess p (RemoveListener st p f) rest

/-- Trace induction: the pattern's listener count plus the successful
removals so far equals the initial sequence length plus the adds. -/
theorem c1_aux (p : Name) (ops : List COp) (st : EmitterState)
    (h : ExactInv p st.listeners) :
    ListenersCount (runCOps p st ops).listeners p + countSuccess p st ops
      = (keyList st.listeners p).length + countAdds ops := by
  induction ops generalizing st with
  | nil =>
    rw [runCOps, countSuccess, countAdds, ListenersCount,
      Listeners_eq_keyList p _ h.1 h.2.1]
  | cons op rest ih =>
    cases op with
    | add f =>
      obtain ⟨hinv, hkl⟩ := On_exact_step p st f h
      have := ih (On st p f) hinv
      rw [hkl] at this
      rw [runCOps, countSuccess, countAdds]
      simp only [List.length_append, List.length_cons, List.length_nil] at this ⊢
      omega
    | rem f =>
      obtain ⟨hinv, hkl⟩ := RemoveListener_exact_step p st f h
      have hih := ih (RemoveListener st p f) hinv
      rw [hkl] at hih
      rw [runCOps, countSuccess, countAdds]
      by_cases hc : hasCallback (keyList st.listeners p) f = true
      · have hlen := length_removeFirst _ _ hc
        rw [if_pos hc]
        omega
      · rw [Bool.not_eq_true] at hc
        rw [removeFirst_of_not_has _ _ hc] at hih
        rw [if_neg (by rw [hc]; exact Bool.false_ne_true)]
        omega

/-- **C1.** For every trace of `On`/`RemoveListener` calls on one exact
(wildcard-free) pattern, starting from a registry in which no stored key
matches that pattern, the pattern's `ListenersCount` afterwards equals the
number of `On` calls minus the number of successful removals — each
successful `RemoveListener` having removed exactly one entry. -/
theorem c1_exact_count (p : Name) (st0 : EmitterState) (ops : List COp)
    (hp : p.contains '*' = false)
    (h0 : ∀ kl ∈ st0.listeners, shouldAdd kl.1 p = false) :
    ListenersCount (runCOps p st0 ops).listeners p
      = countAdds ops - countSuccess p st0 ops := by
  have hnone : lookupKey st0.listeners p = none := by
    cases he : lookupKey st0.listeners p with
    | none => rfl
    | some l =>
      have hbad := h0 (p, l) (lookupKey_some_mem he)
      rw [shouldAdd_self] at hbad
      exact absurd hbad (by simp)
  have hinv : ExactInv p st0.listeners := by
    refine ⟨fun kl hkl _ => h0 kl hkl, ?_, ?_⟩
    · have h0c : (st0.listeners.map Prod.fst).count p = 0 :=
        List.count_eq_zero.mpr ((lookupKey_eq_none_iff _ _).mp hnone)
      omega
    · rw [keyList, hnone]
      intro v hv
      cases hv
  have hmain := c1_aux p ops st0 hinv
  rw [keyList, hnone] at hmain
  simp only [Option.getD_none, List.length_nil, Nat.zero_add] at hmain
  omega

/-- Witness for C1: two adds and one successful plus one unsuccessful
removal on the exact pattern `"e"`, starting from a fresh emitter, leave a
count of `2 - 1 = 1`. -/
theorem c1_exact_count_witness :
    ListenersCount
        (runCOps ['e'] Construct
          [COp.add 1, COp.add 2, COp.rem 1, COp.rem 5]).listeners ['e']
      = countAdds [COp.add 1, COp.add 2, COp.rem 1, COp.rem 5]
        - countSuccess ['e'] Construct [COp.add 1, COp.add 2, COp.rem 1, COp.rem 5] ∧
    ListenersCount
        (runCOps ['e'] Construct
          [COp.add 1, COp.add 2, COp.rem 1, COp.rem 5]).listeners ['e'] = 1 :=
  ⟨c1_exact_count ['e'] Construct _ (by decide)
      (by intro kl hkl; exact absurd hkl (List.not_mem_nil kl)),
    by decide⟩

/-- **C2** (failing input).  A listener registered exactly once via
`Once("te*", f)` on a fresh emitter is invoked *twice* by two subsequent
`EmitSync("testevent")` calls, and is still registered afterwards: the
once-consumption `removeListenerInternal(event, ...)` removes under the
emitted event-name key `"testevent"`, not under the registration pattern key
`"te*"`, so the removal misses and the `once` listener fires on every emit —
contradicting the claim that it fires exactly once and is absent thereafter. -/
theorem c2_once_wildcard_fires_twice :
    (EmitSync (EmitSync (Once Construct ['t', 'e', '*'] 0)
        ['t', 'e', 's', 't', 'e', 'v', 'e', 'n', 't'] [])
        ['t', 'e', 's', 't', 'e', 'v', 'e', 'n', 't'] []).log
      = [(0, []), (0, [])] ∧
    lookupKey (EmitSync (EmitSync (Once Construct ['t', 'e', '*'] 0)
        ['t', 'e', 's', 't', 'e', 'v', 'e', 'n', 't'] [])
        ['t', 'e', 's', 't', 'e', 'v', 'e', 'n', 't'] []).listeners ['t', 'e', '*']
      = some [⟨0, true⟩] := by
  constructor <;>
    simp [Once, Construct, EmitSync, addListener, ensureKey, lookupKey, appendAt,
      Listeners, shouldAdd_eval, invokeStep, removeListenerInternal, hasCallback,
      setKey, removeFirst, newListenerName, matchP]

/-- **C4.** Listeners stored under the `"**"` key are included in the
snapshot of every event name; a wildcard-free pattern matches exactly the
identical event name; and concretely `"user.*"` matches `"user.created"` and
`"user."` but not `"admin.created"`. -/
theorem c4_universal_and_exact (r : Registry) (e p : Name)
    (kl : Name × List Listener) (v : Listener)
    (hkl : kl ∈ r) (hss : kl.1 = ['*', '*']) (hv : v ∈ kl.2)
    (hp : p.contains '*' = false) :
    v ∈ Listeners r e ∧ (shouldAdd p e = true ↔ p = e) ∧
    shouldAdd ['u', 's', 'e', 'r', '.', '*']
      ['u', 's', 'e', 'r', '.', 'c', 'r', 'e', 'a', 't', 'e', 'd'] = true ∧
    shouldAdd ['u', 's', 'e', 'r', '.', '*'] ['u', 's', 'e', 'r', '.'] = true ∧
    shouldAdd ['u', 's', 'e', 'r', '.', '*']
      ['a', 'd', 'm', 'i', 'n', '.', 'c', 'r', 'e', 'a', 't', 'e', 'd'] = false := by
  refine ⟨mem_Listeners hkl (by rw [hss]; exact shouldAdd_starStar e) hv,
    shouldAdd_of_no_wildcard p e hp, ?_, ?_, ?_⟩ <;>
  · rw [shouldAdd_eval]
    decide

/-- Witness for C4 at a one-entry registry holding a `"**"` listener, with
the wildcard-free pattern `"e"` probed against the event `"x"`. -/
theorem c4_universal_and_exact_witness :
    (⟨5, false⟩ : Listener) ∈ Listeners [(['*', '*'], [⟨5, false⟩])] ['x'] ∧
    (shouldAdd ['e'] ['x'] = true ↔ ['e'] = ['x']) ∧
    shouldAdd ['u', 's', 'e', 'r', '.', '*']
      ['u', 's', 'e', 'r', '.', 'c', 'r', 'e', 'a', 't', 'e', 'd'] = true ∧
    shouldAdd ['u', 's', 'e', 'r', '.', '*'] ['u', 's', 'e', 'r', '.'] = true ∧
    shouldAdd ['u', 's', 'e', 'r', '.', '*']
      ['a', 'd', 'm', 'i', 'n', '.', 'c', 'r', 'e', 'a', 't', 'e', 'd'] = false :=
  c4_universal_and_exact [(['*', '*'], [⟨5, false⟩])] ['x'] ['e']
    (['*', '*'], [⟨5, false⟩]) ⟨5, false⟩ (List.mem_singleton.mpr rfl) rfl
    (List.mem_singleton.mpr rfl) (by decide)

/-- **C10** (failing input).  `Destruct` is observably a no-op, not a release
of the registry: the source's `self = nil` assigns to the method's local copy
of the receiver pointer, so on an emitter holding one listener on `"e"` the
caller's registry is fully intact afterwards and `ListenersCount` is still 1
— contradicting the claim (and the source's own comment "free memory from an
emitter instance"). -/
theorem c10_destruct_is_noop :
    (∀ st : EmitterState, Destruct st = st) ∧
    (Destruct ⟨[(['e'], [⟨7, false⟩])], [], []⟩).listeners
      = [(['e'], [⟨7, false⟩])] ∧
    ListenersCount (Destruct ⟨[(['e'], [⟨7, false⟩])], [], []⟩).listeners ['e'] = 1 :=
  ⟨fun _ => rfl, rfl, by decide⟩

/-- **C5** (counterexample).  With a listener `g` (callback 0) registered on
`"newListener"`, the call `On(emitter, "e", 1)` invokes `g` with ONE argument
— the slice `("e", 1)` — and not with the two arguments `"e"` and `1`: the
source passes `[]interface{}{event, callback}` as a single element of
`EmitSync`'s variadic parameter, so the claim's "invoked with the two
arguments (p, f)" is false at this input. -/
theorem c5_two_arguments_counterexample :
    (On ⟨[(newListenerName, [⟨0, false⟩])], [], []⟩ ['e'] 1).log
      = [(0, [Arg.slice [Arg.str ['e'], Arg.cb 1]])] ∧
    (0, [Arg.str ['e'], Arg.cb 1]) ∉
      (On ⟨[(newListenerName, [⟨0, false⟩])], [], []⟩ ['e'] 1).log := by
  have h : (On ⟨[(newListenerName, [⟨0, false⟩])], [], []⟩ ['e'] 1).log
      = [(0, [Arg.slice [Arg.str ['e'], Arg.cb 1]])] := by
    simp [On, EmitSync, addListener, ensureKey, lookupKey, appendAt, Listeners,
      shouldAdd_eval, invokeStep, newListenerName, matchP]
  refine ⟨h, ?_⟩
  rw [h]
  simp

/-- A listener stored under the `"newListener"` key is still in that key's
sequence after the registration write of `On`/`Once`, hence in the snapshot
of the meta-emission. -/
theorem mem_Listeners_newListener_addListener (st : EmitterState) (p : Name)
    (w : Listener) (l : List Listener) (v : Listener)
    (hl : lookupKey st.listeners newListenerName = some l) (hv : v ∈ l) :
    v ∈ Listeners (addListener st.listeners p w) newListenerName := by
  by_cases hp : newListenerName = p
  · subst hp
    have h1 := lookupKey_addListener_self st.listeners newListenerName w
    apply mem_Listeners (lookupKey_some_mem h1) (shouldAdd_self _)
    simp only [keyList, hl, Option.getD_some]
    exact List.mem_append_left _ hv
  · have h1 : lookupKey (addListener st.listeners p w) newListenerName = some l := by
      rw [lookupKey_addListener_ne _ _ _ _ hp, hl]
    exact mem_Listeners (lookupKey_some_mem h1) (shouldAdd_self _) hv

/-- **C5** (amended).  After the registration write, `On` and `Once`
synchronously emit the `"newListener"` meta-event, and every listener
registered under the `"newListener"` key is invoked — with a single
argument: the two-element slice `(pattern, callback)`. -/
theorem c5_newListener_single_slice_arg (st : EmitterState) (p : Name) (f : Nat)
    (l : List Listener) (v : Listener)
    (hl : lookupKey st.listeners newListenerName = some l) (hv : v ∈ l) :
    (v.callback, [Arg.slice [Arg.str p, Arg.cb f]]) ∈ (On st p f).log ∧
    (v.callback, [Arg.slice [Arg.str p, Arg.cb f]]) ∈ (Once st p f).log := by
  constructor
  · simp only [On, EmitSync_log]
    apply List.mem_append_right
    exact List.mem_map_of_mem _
      (mem_Listeners_newListener_addListener st p ⟨f, false⟩ l v hl hv)
  · simp only [Once, EmitSync_log]
    apply List.mem_append_right
    exact List.mem_map_of_mem _
      (mem_Listeners_newListener_addListener st p ⟨f, true⟩ l v hl hv)

/-- Witness for the amended C5: the callback-0 listener on `"newListener"`
is invoked with the single slice argument when `On("e", 1)` runs. -/
theorem c5_newListener_single_slice_arg_witness :
    ((0 : Nat), [Arg.slice [Arg.str ['e'], Arg.cb 1]]) ∈
      (On ⟨[(newListenerName, [⟨0, false⟩])], [], []⟩ ['e'] 1).log ∧
    ((0 : Nat), [Arg.slice [Arg.str ['e'], Arg.cb 1]]) ∈
      (Once ⟨[(newListenerName, [⟨0, false⟩])], [], []⟩ ['e'] 1).log :=
  c5_newListener_single_slice_arg ⟨[(newListenerName, [⟨0, false⟩])], [], []⟩
    ['e'] 1 [⟨0, false⟩] ⟨0, false⟩ rfl (List.mem_singleton.mpr rfl)

/-- **C6** (counterexample).  `RemoveListener` does not always remove *only*
the first identity-matching entry: with the registry holding, under the key
`"removeListener"`, a `once` listener (callback 0) followed by a plain
listener (callback 1), the external call `RemoveListener("removeListener", 1)`
removes the callback-1 entry and then emits the `"removeListener"`
meta-event, whose dispatch once-consumes the callback-0 listener as well —
the key ends empty instead of holding the claimed remainder `[⟨0, once⟩]`. -/
theorem c6_counterexample :
    lookupKey ((⟨[(removeListenerName, [⟨0, true⟩, ⟨1, false⟩])], [], []⟩ :
        EmitterState)).listeners removeListenerName
      = some [⟨0, true⟩, ⟨1, false⟩] ∧
    keyList (RemoveListener ⟨[(removeListenerName, [⟨0, true⟩, ⟨1, false⟩])], [], []⟩
        removeListenerName 1).listeners removeListenerName = [] ∧
    keyList (RemoveListener ⟨[(removeListenerName, [⟨0, true⟩, ⟨1, false⟩])], [], []⟩
        removeListenerName 1).listeners removeListenerName ≠ [⟨0, true⟩] := by
  refine ⟨rfl, by decide, ?_⟩
  intro h
  rw [show keyList (RemoveListener ⟨[(removeListenerName, [⟨0, true⟩, ⟨1, false⟩])],
      [], []⟩ removeListenerName 1).listeners removeListenerName = [] from by decide] at h
  cases h

/-- A member with a matching callback makes the scan succeed. -/
theorem hasCallback_of_mem {l : List Listener} {f : Nat} {v : Listener}
    (hv : v ∈ l) (hf : v.callback = f) : hasCallback l f = true := by
  rw [hasCallback, List.any_eq_true]
  exact ⟨v, hv, by simp [hf]⟩

/-- **C6** (amended).  `RemoveListener(p, f)` is a silent no-op when the key
or an identity-matching callback is absent; when the first matching entry
exists it is removed, preserving the relative order of the remainder and
every other key's binding (the new registry is exactly `setKey` of the old at
`p`), and — provided the registry left behind holds no `once` listener on a
pattern matching `"removeListener"` — nothing else changes and exactly one
`"removeListener"` meta-event is emitted; an emission's internal
once-consumption removals are suppressed and never emit `"removeListener"`
themselves. -/
theorem c6_remove_first_match (st : EmitterState) (p : Name) (f : Nat) :
    (lookupKey st.listeners p = none → RemoveListener st p f = st) ∧
    (∀ l, lookupKey st.listeners p = some l → hasCallback l f = false →
      RemoveListener st p f = st) ∧
    (∀ l₁ v l₂, lookupKey st.listeners p = some (l₁ ++ v :: l₂) →
      (∀ u ∈ l₁, u.callback ≠ f) → v.callback = f →
      (∀ w ∈ Listeners (setKey st.listeners p (l₁ ++ l₂)) removeListenerName,
        w.once = false) →
      (RemoveListener st p f).listeners = setKey st.listeners p (l₁ ++ l₂) ∧
      (RemoveListener st p f).emits
        = st.emits ++ [(removeListenerName, [Arg.slice [Arg.str p, Arg.cb f]])]) ∧
    (∀ e args, (EmitSync st e args).emits = st.emits ++ [(e, args)]) := by
  refine ⟨?_, ?_, ?_, fun e args => EmitSync_emits st e args⟩
  · intro h
    rw [RemoveListener, h]
  · intro l h hc
    rw [RemoveListener, h]
    simp [hc]
  · intro l₁ v l₂ h h₁ hv hnonce
    have hc : hasCallback (l₁ ++ v :: l₂) f = true :=
      hasCallback_of_mem (by simp) hv
    have hrf : removeFirst (l₁ ++ v :: l₂) f = l₁ ++ l₂ :=
      removeFirst_decomp l₁ l₂ v f h₁ hv
    rw [RemoveListener, h]
    simp only [hc, if_true, hrf]
    constructor
    · exact EmitSync_listeners _ _ _ hnonce
    · exact EmitSync_emits _ _ _

/-- Witness for the amended C6: removing callback 5 from a one-entry `"e"`
key removes exactly that entry and emits one `"removeListener"` event. -/
theorem c6_remove_first_match_witness :
    (RemoveListener ⟨[(['e'], [⟨5, false⟩])], [], []⟩ ['e'] 5).listeners
      = setKey [(['e'], [⟨5, false⟩])] ['e'] ([] ++ []) ∧
    (RemoveListener ⟨[(['e'], [⟨5, false⟩])], [], []⟩ ['e'] 5).emits
      = [] ++ [(removeListenerName, [Arg.slice [Arg.str ['e'], Arg.cb 5]])] :=
  (c6_remove_first_match ⟨[(['e'], [⟨5, false⟩])], [], []⟩ ['e'] 5).2.2.1
    [] ⟨5, false⟩ [] rfl (fun u hu => absurd hu (List.not_mem_nil u)) rfl
    (by decide)

/-- On a registry whose only key is `"e"`, the `"newListener"` meta-emission
of `On` finds no matching listener, so `On` just appends to `"e"`'s sequence,
keeps the log, and records the emission event. -/
theorem On_single_e (L : List Listener) (lg : List (Nat × List Arg))
    (em : List (Name × List Arg)) (f : Nat) :
    On ⟨[(['e'], L)], lg, em⟩ ['e'] f
      = ⟨[(['e'], L ++ [⟨f, false⟩])], lg,
          em ++ [(newListenerName, [Arg.slice [Arg.str ['e'], Arg.cb f]])]⟩ := by
  have hadd : addListener [(['e'], L)] ['e'] ⟨f, false⟩
      = [(['e'], L ++ [⟨f, false⟩])] := by
    simp [addListener, ensureKey, lookupKey, appendAt]
  have hsa : shouldAdd ['e'] newListenerName = false := by
    rw [shouldAdd_eval]
    decide
  have hL : Listeners [(['e'], L ++ [⟨f, false⟩])] newListenerName = [] := by
    rw [Listeners, hsa]
    simp [Listeners]
  simp only [On, hadd]
  rw [EmitSync]
  simp only [hL, List.foldl_nil]

/-- The snapshot of `"e"` over the single-key registry `"e"` is that key's
whole sequence. -/
theorem Listeners_single_e (L : List Listener) :
    Listeners [(['e'], L)] ['e'] = L := by
  rw [Listeners, shouldAdd_self]
  simp [Listeners]

/-- **C7.** On an emitter whose registry holds exactly the key `"e"` (with
any prior sequence `l0`), registering `f1` then `f2` via `On` and then
running `EmitSync("e", args)` appends to the log the invocations of `l0` in
stored order, then `f1`, then `f2`: listeners registered on a common exact
key fire in registration order, so `f1` is invoked before `f2`. -/
theorem c7_registration_order (l0 : List Listener) (f1 f2 : Nat)
    (lg : List (Nat × List Arg)) (em : List (Name × List Arg)) (args : List Arg) :
    (EmitSync (On (On ⟨[(['e'], l0)], lg, em⟩ ['e'] f1) ['e'] f2) ['e'] args).log
      = lg ++ (l0.map fun v => (v.callback, args)) ++ [(f1, args), (f2, args)] := by
  rw [On_single_e, On_single_e, EmitSync_log]
  simp only [Listeners_single_e]
  simp [List.append_assoc]

/-- `eraseKey` removes the binding of the erased key. -/
theorem lookupKey_eraseKey_self (r : Registry) (p : Name) :
    lookupKey (eraseKey r p) p = none := by
  induction r with
  | nil => rfl
  | cons hd tl ih =>
    obtain ⟨k, l⟩ := hd
    rw [eraseKey]
    by_cases hk : k = p
    · rw [if_pos hk]
      exact ih
    · rw [if_neg hk, lookupKey, if_neg hk]
      exact ih

/-- `eraseKey` leaves every other key's binding unchanged. -/
theorem lookupKey_eraseKey_ne (r : Registry) (p k : Name) (h : k ≠ p) :
    lookupKey (eraseKey r p) k = lookupKey r k := by
  induction r with
  | nil => rfl
  | cons hd tl ih =>
    obtain ⟨k', l'⟩ := hd
    rw [eraseKey]
    by_cases hk : k' = p
    · rw [if_pos hk, lookupKey, if_neg (by rw [hk]; exact fun hc => h hc.symm)]
      exact ih
    · rw [if_neg hk, lookupKey, lookupKey]
      by_cases hkk : k' = k
      · rw [if_pos hkk, if_pos hkk]
      · rw [if_neg hkk, if_neg hkk]
        exact ih

/-- **C8.** `RemoveAllListeners(nil)` installs a fresh empty registry;
`RemoveAllListeners(p)` is a silent no-op when `p` is absent and otherwise
deletes exactly the binding of `p`, leaving every other key's binding — in
particular wildcard keys matching `p` — unchanged. -/
theorem c8_removeAll_frame (st : EmitterState) (p k : Name) :
    (RemoveAllListeners st none).listeners = [] ∧
    (lookupKey st.listeners p = none → RemoveAllListeners st (some p) = st) ∧
    lookupKey (RemoveAllListeners st (some p)).listeners p = none ∧
    (k ≠ p → lookupKey (RemoveAllListeners st (some p)).listeners k
      = lookupKey st.listeners k) := by
  refine ⟨rfl, ?_, ?_, ?_⟩
  · intro h
    rw [RemoveAllListeners, h]
  · rw [RemoveAllListeners]
    cases h : lookupKey st.listeners p with
    | none => exact h
    | some l => exact lookupKey_eraseKey_self st.listeners p
  · intro hk
    rw [RemoveAllListeners]
    cases h : lookupKey st.listeners p with
    | none => rfl
    | some l => exact lookupKey_eraseKey_ne st.listeners p k hk

/-- Witness for C8 on a one-entry registry: clearing with the sentinel,
no-op removal of the absent key `"x"` (which leaves `"e"` untouched), and
deletion of the present key `"e"`. -/
theorem c8_removeAll_frame_witness :
    (RemoveAllListeners ⟨[(['e'], [⟨1, false⟩])], [], []⟩ none).listeners = [] ∧
    RemoveAllListeners ⟨[(['e'], [⟨1, false⟩])], [], []⟩ (some ['x'])
      = ⟨[(['e'], [⟨1, false⟩])], [], []⟩ ∧
    lookupKey (RemoveAllListeners ⟨[(['e'], [⟨1, false⟩])], [], []⟩
        (some ['e'])).listeners ['e'] = none ∧
    lookupKey (RemoveAllListeners ⟨[(['e'], [⟨1, false⟩])], [], []⟩
        (some ['x'])).listeners ['e']
      = lookupKey [(['e'], [⟨1, false⟩])] ['e'] := by
  have h1 := c8_removeAll_frame ⟨[(['e'], [⟨1, false⟩])], [], []⟩ ['x'] ['e']
  have h2 := c8_removeAll_frame ⟨[(['e'], [⟨1, false⟩])], [], []⟩ ['e'] ['x']
  exact ⟨h1.1, h1.2.1 rfl, h2.2.2.1, h1.2.2.2 (by decide)⟩

end Goemitter
